import Mathlib

/-!
Verification development for the front-matter scanner/stringifier of the
gray-matter-es repository.  Strings are modelled as `List Char` (`Str`);
every JS string operation used by the source is embedded as an executable
Lean function with the same semantics, and the scanner (`parseMatter`),
normalizer (`toFile`), excerpt extractor (`excerpt`) and stringifier
(`stringify`) are translated statement by statement from the TypeScript
source.  The pluggable YAML/JSON serialization engines are external
collaborators in the repository (the spec scopes them out); they are
modelled as an abstract `Engine` parameter whose `parse`/`stringify`
functions are total, matching the repository's `Engine` interface type.
The process-wide memoization cache is likewise out of the spec's scope and
is not modelled; `matterEntry` is the cache-free parse path.
-/

namespace GrayMatter

/-- JS strings, modelled as lists of characters. -/
abbrev Str := List Char

/-- The byte-order mark character U+FEFF. -/
def bomChar : Char := Char.ofNat 0xFEFF

/-- The default delimiter string `---`. -/
def dashes : Str := ['-', '-', '-']

/-- The string `yaml`. -/
def yamlTag : Str := ['y', 'a', 'm', 'l']

/-- The string `json`. -/
def jsonTag : Str := ['j', 's', 'o', 'n']

/-- The string `undefined` (the JS coercion of the `undefined` value that
`str.startsWith(undefined)` performs when `delimiters: ""` makes
`arrayify` return an empty array). -/
def undefStr : Str := ['u', 'n', 'd', 'e', 'f', 'i', 'n', 'e', 'd']

/-- The metadata key `excerpt_separator`. -/
def sepKey : Str :=
  ['e', 'x', 'c', 'e', 'r', 'p', 't', '_', 's', 'e', 'p', 'a', 'r', 'a', 't', 'o', 'r']

/-- The two-character empty-object rendering, an opening brace followed by a
closing brace, which the stringifier compares against. -/
def emptyObjRepr : Str := [Char.ofNat 0x7B, Char.ofNat 0x7D]

/-- JS `\s` / `String.prototype.trim` whitespace class. -/
def isWs (c : Char) : Bool :=
  let n := c.toNat
  n == 0x20 || n == 0x09 || n == 0x0A || n == 0x0D || n == 0x0B || n == 0x0C ||
  n == 0xA0 || n == 0x1680 || (0x2000 ≤ n && n ≤ 0x200A) ||
  n == 0x2028 || n == 0x2029 || n == 0x202F || n == 0x205F || n == 0x3000 || n == 0xFEFF

/-- `stripBom` from utils.ts: drop a leading U+FEFF. -/
def stripBom (s : Str) : Str :=
  match s with
  | [] => []
  | c :: cs => if c = bomChar then cs else c :: cs

/-- JS `String.prototype.trim`. -/
def jsTrim (s : Str) : Str :=
  ((s.dropWhile isWs).reverse.dropWhile isWs).reverse

/-- `newline` from stringify.ts: append a final line feed unless one is
already present (`str.slice(-1) !== "\n"`). -/
def newline (s : Str) : Str :=
  if s.getLast? ≠ some '\n' then s ++ ['\n'] else s

/-- JS `str.startsWith(pre)`. -/
def jsStartsWith (pre s : Str) : Bool := pre.isPrefixOf s

/-- JS `s.indexOf(pat)` on strings, as an optional index (JS returns `-1`
for "not found"; `indexOf("")` is `0`). -/
def indexOfSub (s pat : Str) : Option Nat :=
  if pat.isPrefixOf s then some 0
  else
    match s with
    | [] => none
    | _ :: cs => (indexOfSub cs pat).map (· + 1)

/-- Whether `pat` occurs as a contiguous substring of `s`. -/
def hasSub (s pat : Str) : Bool := (indexOfSub s pat).isSome

/-- JS `str.search(/\r?\n/)`: index of the first match of an optional
carriage return followed by a line feed (`none` for JS's `-1`).  A match
starts at a linefeed, or at a carriage return immediately followed by a
linefeed. -/
def searchNl : Str → Option Nat
  | [] => none
  | c :: cs =>
    if c = '\n' then some 0
    else if c = '\r' ∧ cs.head? = some '\n' then some 0
    else (searchNl cs).map (· + 1)

/-- Join a list of lines with a separator (used only to build the test
documents of the CRLF/LF claim). -/
def joinWith (sep : Str) : List Str → Str
  | [] => []
  | [m] => m
  | m :: ms => m ++ sep ++ joinWith sep ms

/-- Remove every carriage-return character (the line-ending normalization
relating the CRLF and LF variants of a metadata block). -/
def removeCR (s : Str) : Str := s.filter (· ≠ '\r')

/-- One attempt of the comment regex `^\s*#[^\n]+` at a line start: greedy
whitespace (which in JS `\s` includes line breaks), a `#`, then at least one
non-linefeed character, consuming up to the next linefeed.  Returns the
remainder after the match, or `none` if the regex does not match here. -/
def matchComment (l : Str) : Option Str :=
  match l.dropWhile isWs with
  | '#' :: c :: cs => if c ≠ '\n' then some ((c :: cs).dropWhile (· ≠ '\n')) else none
  | _ => none

/-- The scanning loop of `matter.replace(/^\s*#[^\n]+/gm, "")`: `atStart`
records whether the current position is at the start of a line (position 0
or just after a linefeed), where the multiline `^` anchor can match.  Each
step consumes at least one character, so `fuel` — structural-recursion
bookkeeping only — never runs out when it starts at the string length. -/
def scrub (fuel : Nat) (atStart : Bool) (l : Str) : Str :=
  match fuel, l with
  | 0, l => l
  | _ + 1, [] => []
  | fuel + 1, c :: cs =>
    match (if atStart then matchComment (c :: cs) else none) with
    | some r => scrub fuel false r
    | none => c :: scrub fuel (c = '\n') cs

/-- `block` computation from index.ts line 112:
`matter.replace(/^\s*#[^\n]+/gm, "")` -/
def stripComments (s : Str) : Str := scrub s.length true s

/-- JS `a || b` on strings (empty string is falsy). -/
def jsOr (a b : Str) : Str := if a = [] then b else a

/-- A parse/stringify engine, as in the repository's `Engine` interface
(`parse: (str) => Record<string, unknown>` — total functions; a thrown
engine exception is outside this typed contract and outside the claims
about the scanner).  `α` is the metadata-mapping type. -/
structure Engine (α : Type) where
  parse : Str → α
  stringify : α → Str

/-- The operations on metadata mappings that the core uses: the empty
mapping `{}` of toFile/parseMatter, `getStringProp` from utils.ts, and the
object-spread merge `{ ...a, ...b }` of stringify.ts. -/
structure DataModel (α : Type) where
  emptyD : α
  getStrProp : α → Str → Str
  mergeD : α → α → α

/-- The builtin language tags of engines.ts. -/
inductive BuiltinLanguage where
  | yaml
  | json
deriving DecidableEq

/-- Modelled from the spec: `toBuiltinLanguage` is imported from
engines.ts by index.ts and stringify.ts, but the engines.ts draft in the
repository snapshot does not contain its definition.  Per the spec
(default language "yaml"; registry resolves the tags "yaml" and "json")
and the repository's own tests (an unset/empty language parses as YAML,
the tag "json" selects the JSON engine), it coerces the tag "json" to the
JSON language and everything else to the default YAML. -/
def toBuiltinLanguage (s : Str) : BuiltinLanguage :=
  if s = jsonTag then .json else .yaml

/-- The document descriptor (`GrayMatterFile`), minus the `stringify`
method, which is modelled as the standalone function `methodStringify`.
`orig` holds the byte sequence of the original input, represented by its
decoded text; `empty` is the optional snapshot field. -/
structure GrayFile (α : Type) where
  data : α
  content : Str
  excerpt : Str
  orig : Str
  language : Str
  matter : Str
  isEmpty : Bool
  empty : Option Str
deriving DecidableEq

/-- The `excerpt` option: absent/undefined, boolean, a string delimiter,
or a custom extraction function mutating the file. -/
inductive ExcerptOpt (α : Type) where
  | undef
  | bool (b : Bool)
  | str (s : Str)
  | fn (f : GrayFile α → GrayFile α)

/-- Whether the excerpt option is the custom-function variant. -/
def ExcerptOpt.isFn : ExcerptOpt α → Bool
  | .fn _ => true
  | _ => false

/-- Whether the excerpt option is falsy or absent
(`opts.excerpt === false || opts.excerpt == null`). -/
def ExcerptOpt.isFalsy : ExcerptOpt α → Bool
  | .undef => true
  | .bool false => true
  | _ => false

/-- `GrayMatterOptions`: every field optional (undefined when absent).
`delimiters` is either a single string or an opening/closing pair. -/
structure Options (α : Type) where
  language : Option Str
  delimiters : Option (Sum Str (Str × Str))
  excerpt : ExcerptOpt α
  excerpt_separator : Option Str
  data : Option α

/-- The all-absent options value `{}`. -/
def Options.mkEmpty : Options α :=
  { language := none, delimiters := none, excerpt := .undef,
    excerpt_separator := none, data := none }

/-- `ResolvedOptions`: delimiters resolved to a pair and language
defaulted. -/
structure ResolvedOpts (α : Type) where
  language : Str
  delimiters : Str × Str
  excerpt : ExcerptOpt α
  excerpt_separator : Option Str
  data : Option α

/-- `defaults` from defaults.ts.  `arrayify(opts.delimiters ?? "---")`
yields a one-element array for a non-empty string (used for both ends),
the pair itself for a pair, and — because the empty string is falsy — an
empty array for `""`, in which case `delims[0]!`/`delims[1]!` are
`undefined` at runtime and the later `str.startsWith`/string
concatenation coerce them to the text `undefined`. -/
def defaults (options : Option (Options α)) : ResolvedOpts α :=
  let o := options.getD Options.mkEmpty
  let delims : Str × Str :=
    match o.delimiters with
    | none => (dashes, dashes)
    | some (.inl s) => if s = [] then (undefStr, undefStr) else (s, s)
    | some (.inr p) => p
  { language := (o.language).getD yamlTag
    delimiters := delims
    excerpt := o.excerpt
    excerpt_separator := o.excerpt_separator
    data := o.data }

/-- The value found in an object's `content` slot. -/
inductive ContentVal where
  | cstr (s : Str)
  | cbytes (s : Str)
  | cnull
  | cother
deriving DecidableEq

/-- `GrayMatterInput` at runtime: a string, a byte sequence (represented
by its decoded text), a plain object (optionally carrying `content`,
`data`, `language`, `matter` slots; `cnull` stands for an explicit
null/undefined-valued `content`), the null/undefined primitives, or any
other non-object value (number, boolean, array, ...). -/
inductive Input (α : Type) where
  | istr (s : Str)
  | ibytes (s : Str)
  | iobj (content : Option ContentVal) (data : Option α)
      (language : Option Str) (matter : Option Str)
  | inull
  | iother

/-- The error produced by the `throw new TypeError(...)` statements. -/
inductive JsError where
  | typeError
deriving DecidableEq

/-- The `content` slot of `inputObj` in to-file.ts: for a plain object the
object's own slot, otherwise the slot of the wrapper `{ content: input }`. -/
def contentSlot : Input α → Option ContentVal
  | .istr s => some (.cstr s)
  | .ibytes s => some (.cbytes s)
  | .iobj c _ _ _ => c
  | .inull => some .cnull
  | .iother => some .cother

/-- `inputObj.content ?? ""`: nullish content defaults to the empty
string. -/
def effContent (i : Input α) : ContentVal :=
  match contentSlot i with
  | none => .cstr []
  | some .cnull => .cstr []
  | some v => v

/-- `toString` from utils.ts: decode a byte sequence or accept a string,
stripping the byte-order mark; any other value throws a `TypeError`. -/
def toStringVal : ContentVal → Except JsError Str
  | .cstr s => .ok (stripBom s)
  | .cbytes s => .ok (stripBom s)
  | .cnull => .error .typeError
  | .cother => .error .typeError

/-- `toBuffer` from utils.ts applied to `inputObj.content ?? ""`: encode a
string (no BOM stripping); pass a byte sequence through. Only reached
after `toString` succeeded. -/
def toBufferVal : ContentVal → Str
  | .cstr s => s
  | .cbytes s => s
  | .cnull => []
  | .cother => []

/-- `inputObj.data` check: `isObject(inputObj.data) ? inputObj.data : {}`.
A present `α`-typed value is an object. -/
def dataSlot (dm : DataModel α) : Input α → α
  | .iobj _ (some d) _ _ => d
  | _ => dm.emptyD

/-- The `language`/`matter` string slots of the input object (empty for
non-object inputs, whose wrapper has neither slot). -/
def strSlot (sel : Input α → Option Str) (i : Input α) : Str := (sel i).getD []

/-- `toFile` from to-file.ts: normalize the input into a document
descriptor, or fail with a `TypeError` when the effective content is
neither a string nor a byte sequence.  The `stringify` method installed on
the file is modelled by the standalone `methodStringify` below. -/
def toFile (dm : DataModel α) (input : Input α) : Except JsError (GrayFile α) :=
  match toStringVal (effContent input) with
  | .error e => .error e
  | .ok content =>
    .ok { data := dataSlot dm input
          content := content
          excerpt := []
          orig := toBufferVal (effContent input)
          language := strSlot (fun i => match i with | .iobj _ _ l _ => l | _ => none) input
          matter := strSlot (fun i => match i with | .iobj _ _ _ m => m | _ => none) input
          isEmpty := false
          empty := none }

/-- `test` from index.ts: true iff the text starts with the resolved
opening delimiter. -/
def test (s : Str) (options : Option (Options α)) : Bool :=
  jsStartsWith (defaults options).delimiters.1 s

/-- The body of `language` from index.ts, over already-resolved options
(`defaults` is idempotent, so resolving twice is harmless): strip a
leading opening delimiter, then `str.slice(0, str.search(/\r?\n/))` —
where a failed search returns `-1` and the slice therefore removes the
final character instead. -/
structure LangInfo where
  raw : Str
  name : Str
deriving DecidableEq

/-- The body of `language` from index.ts, over already-resolved options
(`defaults` is idempotent, so resolving twice is harmless): strip a
leading opening delimiter, then `str.slice(0, str.search(/\r?\n/))` —
where a failed search returns `-1` and the slice therefore removes the
final character instead.  `name` is the trimmed token (empty when the raw
token is empty). -/
def languageBody (s : Str) (opts : ResolvedOpts α) : LangInfo :=
  let open_ := opts.delimiters.1
  let s := if jsStartsWith open_ s then s.drop open_.length else s
  let lang :=
    match searchNl s with
    | some i => s.take i
    | none => s.take (s.length - 1)
  { raw := lang, name := if lang ≠ [] then jsTrim lang else [] }

/-- `language` from index.ts, the public language-detection operation. -/
def language (s : Str) (options : Option (Options α)) : LangInfo :=
  languageBody s (defaults options)

/-- `excerpt` from excerpt.ts, over already-resolved options.  The
defensive `file.data ??= {}` is a no-op in this model because `data` is
total.  A function-valued `excerpt` option is fully responsible for the
mutation; otherwise the delimiter is the string `excerpt` option if set,
else the data's non-empty `excerpt_separator`, else the
`excerpt_separator` option, else the opening delimiter, and the excerpt
becomes the content before its first occurrence (content unchanged). -/
def excerpt (dm : DataModel α) (file : GrayFile α) (opts : ResolvedOpts α) : GrayFile α :=
  match opts.excerpt with
  | .fn f => f file
  | eo =>
    let dataSep := dm.getStrProp file.data sepKey
    let sep : Option Str := if dataSep ≠ [] then some dataSep else opts.excerpt_separator
    if sep.isNone && eo.isFalsy then file
    else
      let delimiter :=
        match eo with
        | .str s => s
        | _ => sep.getD opts.delimiters.1
      match indexOfSub file.content delimiter with
      | some idx => { file with excerpt := file.content.take idx }
      | none => file

/-- Lines 92–135 of index.ts — the scan performed once the opening
delimiter has matched and the false-match guard has passed: strip the
opening delimiter, detect an optional language tag, locate the closing
delimiter (`"\n" + close`, falling back to the whole remaining text),
store the raw block, branch on the comment-stripped block (empty block
sets `isEmpty` and skips the engine; otherwise the registry's engine for
the file's language parses the raw block), rebuild the body (dropping at
most one leading carriage return and then at most one leading linefeed),
and finally run the excerpt pass.  Note `len` is measured before the
language tag is stripped, exactly as in the source. -/
def scanCore (dm : DataModel α) (reg : BuiltinLanguage → Engine α)
    (file : GrayFile α) (opts : ResolvedOpts α) : GrayFile α :=
  let close := '\n' :: opts.delimiters.2
  let str := file.content.drop opts.delimiters.1.length
  let len := str.length
  let lang := languageBody str opts
  let file := if lang.name ≠ [] then { file with language := lang.name } else file
  let str := if lang.name ≠ [] then str.drop lang.raw.length else str
  let closeIndex := (indexOfSub str close).getD len
  let file := { file with matter := str.take closeIndex }
  let block := jsTrim (stripComments file.matter)
  let file :=
    if block = [] then
      { file with isEmpty := true, empty := some file.content, data := dm.emptyD }
    else
      { file with data := (reg (toBuiltinLanguage file.language)).parse file.matter }
  let file :=
    if closeIndex = len then { file with content := [] }
    else
      let c := str.drop (closeIndex + close.length)
      let c := if c.head? = some '\r' then c.drop 1 else c
      let c := if c.head? = some '\n' then c.drop 1 else c
      { file with content := c }
  excerpt dm file opts

/-- `parseMatter` from index.ts lines 68–137.  `reg` is the engine
registry (`getEngine`), consulted through `toBuiltinLanguage` exactly
where the source does.  A truthy `language` option overwrites the file's
language first; a text not starting with the opening delimiter only runs
the excerpt pass; the false-match guard (`str.at(openLen)` equal to the
delimiter's own last character, JS `===` on possibly-undefined values)
returns the file unchanged; otherwise `scanCore` runs. -/
def parseMatter (dm : DataModel α) (reg : BuiltinLanguage → Engine α)
    (file : GrayFile α) (options : Option (Options α)) : GrayFile α :=
  let opts := defaults options
  let open_ := opts.delimiters.1
  let str := file.content
  let file := if opts.language ≠ [] then { file with language := opts.language } else file
  let openLen := open_.length
  if ¬ jsStartsWith open_ str then excerpt dm file opts
  else if str[openLen]? = open_.getLast? then file
  else scanCore dm reg file opts

/-- `matter` from index.ts without the memoization cache (the spec scopes
caching out; this is the pure parse path): the empty string
short-circuits to the normalized file with `isEmpty` set, everything else
goes through `toFile` and `parseMatter`. -/
def matterEntry (dm : DataModel α) (reg : BuiltinLanguage → Engine α)
    (input : Input α) (options : Option (Options α)) : Except JsError (GrayFile α) :=
  match input with
  | .istr [] => (toFile dm input).map (fun f => { f with isEmpty := true })
  | _ => (toFile dm input).map (fun f => parseMatter dm reg f options)

/-- `stringify` from stringify.ts.  The first argument is a document or a
raw string; a raw string with no data and no options is returned
unchanged, a raw string otherwise fails the `isGrayMatterFile` check with
a `TypeError`. -/
def stringify (dm : DataModel α) (reg : BuiltinLanguage → Engine α)
    (file : Sum (GrayFile α) Str) (dataArg : Option α) (options : Option (Options α)) :
    Except JsError Str :=
  let passthrough : Option Str :=
    match file, dataArg, options with
    | .inr s, none, none => some s
    | _, _, _ => none
  match passthrough with
  | some s => .ok s
  | none =>
    let (dataArg, options) :=
      match file, dataArg, options with
      | .inl f, none, none => (some f.data, some Options.mkEmpty)
      | _, d, o => (d, o)
    match file with
    | .inr _ => .error .typeError
    | .inl f =>
      let str := f.content
      let opts := defaults options
      let dataRes : Option α :=
        match dataArg with
        | some d => some d
        | none => opts.data
      match dataRes with
      | none => .ok str
      | some d =>
        let lang := toBuiltinLanguage (jsOr f.language opts.language)
        let engine := reg lang
        let d := dm.mergeD f.data d
        let open_ := opts.delimiters.1
        let close := opts.delimiters.2
        let m := jsTrim (engine.stringify d)
        let buf := if m ≠ emptyObjRepr then newline open_ ++ newline m ++ newline close else []
        let buf :=
          if f.excerpt ≠ [] ∧ indexOfSub str (jsTrim f.excerpt) = none then
            buf ++ newline f.excerpt ++ newline close
          else buf
        .ok (buf ++ newline str)

/-- The `stringify` method that to-file.ts installs on every file object:
it first overwrites `this.language` when the options carry a truthy
language, then delegates to `stringify`.  Returns the (possibly mutated)
file together with the output. -/
def methodStringify (dm : DataModel α) (reg : BuiltinLanguage → Engine α)
    (self : GrayFile α) (dataArg : Option α) (options : Option (Options α)) :
    GrayFile α × Except JsError Str :=
  let self :=
    match options with
    | some o =>
      match o.language with
      | some l => if l ≠ [] then { self with language := l } else self
      | none => self
    | none => self
  (self, stringify dm reg (.inl self) dataArg options)

/-- The subterm `file.language || opts.language` of stringify.ts line 493,
the language whose engine a stringify call selects. -/
def selectedLanguage (f : GrayFile α) (options : Option (Options α)) : Str :=
  jsOr f.language (defaults options).language

/-!  A concrete instantiation used to exercise the theorems on concrete
inputs: metadata mappings are association lists of string pairs, and the
engine is a miniature flat `key: value` line format. -/

/-- Concrete mapping type: association lists from keys to string values. -/
abbrev SData := List (Str × Str)

/-- Concrete data model over association lists. -/
def strDM : DataModel SData :=
  { emptyD := []
    getStrProp := fun d k => (d.lookup k).getD []
    mergeD := fun a b =>
      a.map (fun p => (p.1, (b.lookup p.1).getD p.2)) ++
        b.filter (fun p => (a.lookup p.1).isNone) }

/-- Split a string at every linefeed. -/
def splitNl : Str → List Str
  | [] => [[]]
  | c :: cs =>
    if c = '\n' then [] :: splitNl cs
    else
      match splitNl cs with
      | [] => [[c]]
      | l :: ls => (c :: l) :: ls

/-- One `key: value` line of the miniature engine format. -/
def parseLine (l : Str) : Str × Str :=
  let l := jsTrim l
  (l.takeWhile (· ≠ ':'), jsTrim ((l.dropWhile (· ≠ ':')).drop 1))

/-- A miniature engine serializing a mapping as `key: value` lines. -/
def toyEngine : Engine SData :=
  { parse := fun s => ((splitNl s).filter (fun l => jsTrim l ≠ [])).map parseLine
    stringify := fun d => joinWith ['\n'] (d.map (fun p => p.1 ++ [':', ' '] ++ p.2)) }

/-- A registry answering the miniature engine for both builtin tags. -/
def toyReg : BuiltinLanguage → Engine SData := fun _ => toyEngine

/-! ### Facts about the string primitives -/

theorem stripBom_of_head {s : Str} (h : s.head? ≠ some bomChar) : stripBom s = s := by
  cases s with
  | nil => rfl
  | cons c cs =>
    have hc : ¬ c = bomChar := by
      intro hc
      exact h (by simp [hc])
    simp [stripBom, hc]

theorem jsStartsWith_append (pre r : Str) : jsStartsWith pre (pre ++ r) = true := by
  simp [jsStartsWith, List.isPrefixOf_iff_prefix]

theorem indexOfSub_pos {s pat : Str} (h : pat.isPrefixOf s = true) :
    indexOfSub s pat = some 0 := by
  unfold indexOfSub
  simp [h]

theorem indexOfSub_cons_neg {c : Char} {cs pat : Str} (h : pat.isPrefixOf (c :: cs) = false) :
    indexOfSub (c :: cs) pat = (indexOfSub cs pat).map (· + 1) := by
  conv => lhs; unfold indexOfSub
  simp [h]

theorem hasSub_cons {c : Char} {cs pat : Str} :
    hasSub (c :: cs) pat = (pat.isPrefixOf (c :: cs) || hasSub cs pat) := by
  by_cases h : pat.isPrefixOf (c :: cs)
  · simp [hasSub, indexOfSub_pos h, h]
  · simp only [Bool.not_eq_true] at h
    simp [hasSub, indexOfSub_cons_neg h, h, Option.isSome_map]

theorem not_prefix_of_hasSub_eq_false {s pat : Str} (h : hasSub s pat = false) :
    pat.isPrefixOf s = false := by
  cases s with
  | nil =>
    cases pat with
    | nil => simp [hasSub, indexOfSub] at h
    | cons p ps => rfl
  | cons c cs =>
    rw [hasSub_cons] at h
    exact (Bool.or_eq_false_iff.mp h).1

theorem hasSub_tail_eq_false {c : Char} {cs pat : Str} (h : hasSub (c :: cs) pat = false) :
    hasSub cs pat = false := by
  rw [hasSub_cons] at h
  exact (Bool.or_eq_false_iff.mp h).2

theorem hasSub_drop_eq_false {s pat : Str} (h : hasSub s pat = false) (n : Nat) :
    hasSub (s.drop n) pat = false := by
  induction n generalizing s with
  | zero => simpa using h
  | succ n ih =>
    cases s with
    | nil => simpa using h
    | cons c cs => simpa using ih (hasSub_tail_eq_false h)

theorem indexOfSub_eq_none_of_hasSub {s pat : Str} (h : hasSub s pat = false) :
    indexOfSub s pat = none := by
  unfold hasSub at h
  exact Option.not_isSome_iff_eq_none.mp (by simp [h])

/-- A pattern starting with a character that does not recur in its tail
cannot begin strictly inside a short junk prefix of itself. -/
theorem head_mem_tail_of_straddle {c : Char} {t s' r : Str}
    (h : (c :: t).isPrefixOf (s' ++ (c :: t) ++ r) = true)
    (h1 : s' ≠ []) (h2 : s'.length ≤ t.length) : c ∈ t := by
  rw [List.isPrefixOf_iff_prefix] at h
  obtain ⟨u, hu⟩ := h
  have hlhs : (s' ++ (c :: t) ++ r)[s'.length]? = some c := by
    rw [List.append_assoc, List.getElem?_append_right (Nat.le_refl _)]
    simp
  have hlen : 0 < s'.length := List.length_pos.mpr h1
  have hrhs : ((c :: t) ++ u)[s'.length]? = t[s'.length - 1]? := by
    rw [List.getElem?_append_left (by simp only [List.length_cons]; omega)]
    cases hs : s'.length with
    | zero => omega
    | succ n => simp
  have hfin : t[s'.length - 1]? = some c := by
    rw [← hrhs, hu]
    exact hlhs
  exact List.getElem?_mem hfin

/-- If a pattern occurs nowhere in `s'`, and its first character does not
recur in its tail, then the first occurrence of the pattern in
`s' ++ pat ++ r` is exactly at the end of `s'`. -/
theorem indexOfSub_marker {c : Char} {t s' r : Str} (hc : c ∉ t)
    (hfree : hasSub s' (c :: t) = false) :
    indexOfSub (s' ++ (c :: t) ++ r) (c :: t) = some s'.length := by
  induction s' with
  | nil =>
    simp only [List.nil_append, List.length_nil]
    exact indexOfSub_pos (by simp [List.isPrefixOf_iff_prefix])
  | cons x xs ih =>
    have hnp : (c :: t).isPrefixOf ((x :: xs) ++ (c :: t) ++ r) = false := by
      by_contra hcon
      simp only [Bool.not_eq_false] at hcon
      by_cases hlen : (c :: t).length ≤ (x :: xs).length
      · have hpre : c :: t <+: x :: xs := by
          have hx : c :: t <+: ((x :: xs) ++ ((c :: t) ++ r)).take (x :: xs).length :=
            List.prefix_take_iff.mpr
              ⟨by simpa [List.append_assoc] using List.isPrefixOf_iff_prefix.mp hcon, hlen⟩
          rwa [List.take_left] at hx
        have hpre' := List.isPrefixOf_iff_prefix.mpr hpre
        rw [not_prefix_of_hasSub_eq_false hfree] at hpre'
        cases hpre'
      · exact hc (head_mem_tail_of_straddle hcon (by simp)
          (by simp only [List.length_cons, Nat.not_le] at hlen ⊢; omega))
    have hx : (x :: xs) ++ (c :: t) ++ r = x :: (xs ++ (c :: t) ++ r) := by simp
    rw [hx] at hnp ⊢
    rw [indexOfSub_cons_neg hnp, ih (hasSub_tail_eq_false hfree)]
    rfl

theorem jsTrim_getLast_not_ws {s : Str} (h : jsTrim s ≠ []) :
    ∃ c, (jsTrim s).getLast? = some c ∧ isWs c = false := by
  unfold jsTrim at h ⊢
  set z := (s.dropWhile isWs).reverse.dropWhile isWs with hz
  cases hh : z.head? with
  | none =>
    rw [List.head?_eq_none_iff] at hh
    rw [hh] at h
    simp at h
  | some c =>
    refine ⟨c, ?_, ?_⟩
    · rw [List.getLast?_reverse, hh]
    · have := List.head?_dropWhile_not isWs ((s.dropWhile isWs).reverse)
      rw [← hz, hh] at this
      simpa using this

theorem newline_of_last_not_nl {s : Str} (h : s.getLast? ≠ some '\n') :
    newline s = s ++ ['\n'] := by
  simp [newline, h]

theorem newline_jsTrim {s : Str} (h : jsTrim s ≠ []) :
    newline (jsTrim s) = jsTrim s ++ ['\n'] := by
  obtain ⟨c, hc, hw⟩ := jsTrim_getLast_not_ws h
  refine newline_of_last_not_nl ?_
  rw [hc]
  intro hcon
  rw [Option.some_inj.mp hcon] at hw
  simp [isWs] at hw

/-- A non-function excerpt pass only ever writes the `excerpt` field. -/
theorem excerpt_fields {dm : DataModel α} {f : GrayFile α} {opts : ResolvedOpts α}
    (h : opts.excerpt.isFn = false) :
    (excerpt dm f opts).content = f.content ∧ (excerpt dm f opts).data = f.data ∧
    (excerpt dm f opts).matter = f.matter ∧ (excerpt dm f opts).isEmpty = f.isEmpty ∧
    (excerpt dm f opts).empty = f.empty ∧ (excerpt dm f opts).language = f.language := by
  unfold excerpt
  cases hopt : opts.excerpt with
  | fn g => rw [hopt] at h; simp [ExcerptOpt.isFn] at h
  | undef =>
    simp only [hopt]
    repeat' split
    all_goals simp
  | bool b =>
    simp only [hopt]
    repeat' split
    all_goals simp
  | str s =>
    simp only [hopt]
    repeat' split
    all_goals simp

/-- The document that `toFile` builds from a plain-string input. -/
def strFile (dm : DataModel α) (s : Str) : GrayFile α :=
  { data := dm.emptyD
    content := stripBom s
    excerpt := []
    orig := s
    language := []
    matter := []
    isEmpty := false
    empty := none }

theorem toFile_istr (dm : DataModel α) (s : Str) :
    toFile dm (.istr s) = .ok (strFile dm s) := rfl

theorem matterEntry_cons (dm : DataModel α) (reg : BuiltinLanguage → Engine α)
    (c : Char) (cs : Str) (options : Option (Options α)) :
    matterEntry dm reg (.istr (c :: cs)) options =
      .ok (parseMatter dm reg (strFile dm (c :: cs)) options) := rfl

theorem searchNl_eq_none {s : Str} (h : '\n' ∉ s) : searchNl s = none := by
  induction s with
  | nil => rfl
  | cons c cs ih =>
    have h1 : ¬ c = '\n' := fun hc => h (hc ▸ List.mem_cons_self c cs)
    have h2 : '\n' ∉ cs := fun hm => h (List.mem_cons_of_mem c hm)
    have h3 : ¬ (c = '\r' ∧ cs.head? = some '\n') := by
      rintro ⟨-, hh⟩
      exact h2 (List.mem_of_mem_head? hh)
    unfold searchNl
    simp [h1, h3, ih h2]

/-! ### Path lemmas for the scanner -/

theorem parseMatter_of_no_open {dm : DataModel α} {reg : BuiltinLanguage → Engine α}
    {f : GrayFile α} {options : Option (Options α)}
    (h1 : jsStartsWith (defaults options).delimiters.1 f.content = false) :
    parseMatter dm reg f options =
      excerpt dm
        (if (defaults options).language ≠ [] then
          { f with language := (defaults options).language } else f)
        (defaults options) := by
  unfold parseMatter
  simp [h1]

theorem parseMatter_of_guard {dm : DataModel α} {reg : BuiltinLanguage → Engine α}
    {f : GrayFile α} {options : Option (Options α)}
    (h1 : jsStartsWith (defaults options).delimiters.1 f.content = true)
    (h2 : f.content[(defaults options).delimiters.1.length]? =
      (defaults options).delimiters.1.getLast?) :
    parseMatter dm reg f options =
      (if (defaults options).language ≠ [] then
        { f with language := (defaults options).language } else f) := by
  unfold parseMatter
  simp [h1, h2]

theorem parseMatter_of_scan {dm : DataModel α} {reg : BuiltinLanguage → Engine α}
    {f : GrayFile α} {options : Option (Options α)}
    (h1 : jsStartsWith (defaults options).delimiters.1 f.content = true)
    (h2 : f.content[(defaults options).delimiters.1.length]? ≠
      (defaults options).delimiters.1.getLast?) :
    parseMatter dm reg f options =
      scanCore dm reg
        (if (defaults options).language ≠ [] then
          { f with language := (defaults options).language } else f)
        (defaults options) := by
  unfold parseMatter
  simp [h1, h2]

/-! ### Claims -/

/-- C10: for every string that starts with the resolved opening delimiter
and contains no line-break character after it, the `language` operation
returns a raw token equal to the text after the delimiter with its final
character removed (empty when nothing remains) — the consequence of
`str.search(/\r?\n/)` returning `-1` and `slice(0, -1)` dropping the last
character. -/
theorem c10_language_no_newline (options : Option (Options α)) (rest : Str)
    (h1 : '\n' ∉ rest) (h2 : '\r' ∉ rest) :
    (language ((defaults options).delimiters.1 ++ rest) options).raw = rest.dropLast := by
  unfold language languageBody
  simp only [jsStartsWith_append, if_pos, List.drop_left, searchNl_eq_none h1,
    List.dropLast_eq_take]

theorem c10_witness :
    '\n' ∉ jsonTag ∧ '\r' ∉ jsonTag ∧
      (language ((defaults (none : Option (Options SData))).delimiters.1 ++ jsonTag)
        (none : Option (Options SData))).raw = jsonTag.dropLast :=
  ⟨by decide, by decide, c10_language_no_newline none jsonTag (by decide) (by decide)⟩

/-- C5: when the content starts with the opening delimiter immediately
followed by one more instance of the delimiter's own last character, the
scanner treats the document as having no front matter and returns it
unchanged: content preserved, data still the empty mapping, `isEmpty`
still false (and no raw block or excerpt is produced). -/
theorem c5_false_match_guard (dm : DataModel α) (reg : BuiltinLanguage → Engine α)
    (T : Str) (options : Option (Options α))
    (hopen : (defaults options).delimiters.1 ≠ [])
    (h1 : jsStartsWith (defaults options).delimiters.1 (stripBom T) = true)
    (h2 : (stripBom T)[(defaults options).delimiters.1.length]? =
      (defaults options).delimiters.1.getLast?) :
    ∃ g, matterEntry dm reg (.istr T) options = .ok g ∧
      g.content = stripBom T ∧ g.data = dm.emptyD ∧ g.isEmpty = false ∧
      g.matter = [] ∧ g.excerpt = [] := by
  cases T with
  | nil =>
    exfalso
    have hlast : (defaults options).delimiters.1.getLast? = none := by
      have : (stripBom ([] : Str))[(defaults options).delimiters.1.length]? = none := by
        simp [stripBom]
      rw [← h2, this]
    exact hopen (List.getLast?_eq_none_iff.mp hlast)
  | cons c cs =>
    rw [matterEntry_cons]
    refine ⟨_, rfl, ?_⟩
    rw [parseMatter_of_guard h1 h2]
    split <;> simp [strFile]

theorem c5_witness :
    (defaults (none : Option (Options SData))).delimiters.1 ≠ [] ∧
      jsStartsWith (defaults (none : Option (Options SData))).delimiters.1
        (stripBom (['-', '-', '-', '-', '\n', 'x'] : Str)) = true ∧
      (stripBom (['-', '-', '-', '-', '\n', 'x'] : Str))[(defaults
        (none : Option (Options SData))).delimiters.1.length]? =
        (defaults (none : Option (Options SData))).delimiters.1.getLast? ∧
      ∃ g, matterEntry strDM toyReg (.istr ['-', '-', '-', '-', '\n', 'x']) none = .ok g ∧
        g.content = stripBom ['-', '-', '-', '-', '\n', 'x'] ∧ g.data = strDM.emptyD ∧
        g.isEmpty = false ∧ g.matter = [] ∧ g.excerpt = [] :=
  ⟨by decide, by decide, by decide,
    c5_false_match_guard strDM toyReg ['-', '-', '-', '-', '\n', 'x'] none
      (by decide) (by decide) (by decide)⟩

/-- C2, as stated, is false: the normalizer strips a leading byte-order
mark, so for a BOM-prefixed text (which does not start with the opening
delimiter) the parsed content is not the input text.  Concretely,
parsing the two-character text BOM,`x` yields content `x`. -/
theorem c2_counterexample :
    jsStartsWith (defaults (none : Option (Options SData))).delimiters.1
      [bomChar, 'x'] = false ∧
    (matterEntry strDM toyReg (.istr [bomChar, 'x']) none).toOption.map
      (fun f => f.content) ≠ some [bomChar, 'x'] := by
  constructor
  · decide
  · decide

/-- C2 amended: for every text whose BOM-stripped form does not start
with the resolved opening delimiter, parsing (with a non-function excerpt
setting) returns a document whose content is the BOM-stripped text and
whose data is the empty mapping. -/
theorem c2_no_front_matter (dm : DataModel α) (reg : BuiltinLanguage → Engine α)
    (T : Str) (options : Option (Options α))
    (hfn : (defaults options).excerpt.isFn = false)
    (h1 : jsStartsWith (defaults options).delimiters.1 (stripBom T) = false) :
    ∃ g, matterEntry dm reg (.istr T) options = .ok g ∧
      g.content = stripBom T ∧ g.data = dm.emptyD := by
  cases T with
  | nil => exact ⟨_, rfl, rfl, rfl⟩
  | cons c cs =>
    rw [matterEntry_cons]
    refine ⟨_, rfl, ?_, ?_⟩ <;>
      rw [parseMatter_of_no_open h1]
    · rw [(excerpt_fields hfn).1]
      split <;> simp [strFile]
    · rw [(excerpt_fields hfn).2.1]
      split <;> simp [strFile]

theorem c2_witness :
    (defaults (none : Option (Options SData))).excerpt.isFn = false ∧
      jsStartsWith (defaults (none : Option (Options SData))).delimiters.1
        (stripBom ['f', 'o', 'o']) = false ∧
      ∃ g, matterEntry strDM toyReg (.istr ['f', 'o', 'o']) none = .ok g ∧
        g.content = stripBom ['f', 'o', 'o'] ∧ g.data = strDM.emptyD :=
  ⟨by decide, by decide, c2_no_front_matter strDM toyReg ['f', 'o', 'o'] none
    (by decide) (by decide)⟩

/-- The input classification claimed by C8, following the spec's words: a
string, a byte sequence, or an object carrying a `content` field. -/
def specAcceptable : Input α → Bool
  | .istr _ => true
  | .ibytes _ => true
  | .iobj (some _) _ _ _ => true
  | _ => false

/-- C8, as stated, is false: an object that carries no `content` field is
none of string, byte sequence, or object-with-content, so the claim says
normalization must fail — but `inputObj.content ?? ""` defaults the
missing field to the empty string and normalization succeeds. -/
theorem c8_counterexample :
    specAcceptable (Input.iobj (α := SData) none none none none) = false ∧
    toFile strDM (.iobj none none none none) = .ok (strFile strDM []) :=
  ⟨rfl, rfl⟩

/-- Whether the effective content — the input itself for non-objects, the
`content` field for objects, nullish values defaulting to the empty
string — is neither a string nor a byte sequence, which is what
`toString` rejects. -/
def badEffContent (i : Input α) : Bool :=
  match effContent i with
  | .cother => true
  | _ => false

/-- Whether an `Except` computation succeeded. -/
def isOkE : Except ε β → Bool
  | .ok _ => true
  | .error _ => false

/-- C8 amended: normalization fails with a `TypeError` exactly when the
effective content value (the input itself for non-objects, the object's
`content` field otherwise, with null/undefined defaulting to the empty
string) is neither a string nor a byte sequence; all other inputs
produce a document. -/
theorem c8_toFile_failure (dm : DataModel α) (input : Input α) :
    isOkE (toFile dm input) = false ↔ badEffContent input = true := by
  cases input with
  | istr s => simp [toFile, toStringVal, effContent, contentSlot, badEffContent, isOkE,
      Except.bind]
  | ibytes s => simp [toFile, toStringVal, effContent, contentSlot, badEffContent, isOkE,
      Except.bind]
  | inull => simp [toFile, toStringVal, effContent, contentSlot, badEffContent, isOkE,
      Except.bind]
  | iother => simp [toFile, toStringVal, effContent, contentSlot, badEffContent, isOkE,
      Except.bind]
  | iobj c d l m =>
    cases c with
    | none => simp [toFile, toStringVal, effContent, contentSlot, badEffContent, isOkE,
        Except.bind]
    | some cv =>
      cases cv <;> simp [toFile, toStringVal, effContent, contentSlot, badEffContent, isOkE,
        Except.bind]

/-- C9: calling the document's own `stringify` method with options that
carry a (truthy) language overwrites the document's `language` field
before serializing, so the serialization uses the overridden language and
a later `stringify` call without options selects its engine by the
overridden language as well. -/
theorem c9_method_stringify_mutates (dm : DataModel α) (reg : BuiltinLanguage → Engine α)
    (f : GrayFile α) (d : Option α) (L : Str) (hL : L ≠ []) :
    (methodStringify dm reg f d (some { Options.mkEmpty with language := some L })).1.language
        = L ∧
      (methodStringify dm reg f d (some { Options.mkEmpty with language := some L })).2 =
        stringify dm reg (.inl { f with language := L }) d
          (some { Options.mkEmpty with language := some L }) ∧
      selectedLanguage
        (methodStringify dm reg f d (some { Options.mkEmpty with language := some L })).1
        none = L := by
  unfold methodStringify selectedLanguage
  simp only [Options.mkEmpty]
  simp [hL, jsOr, defaults]

theorem c9_witness :
    jsonTag ≠ ([] : Str) ∧
      (methodStringify strDM toyReg (strFile strDM []) none
        (some { Options.mkEmpty with language := some jsonTag })).1.language = jsonTag ∧
      selectedLanguage
        (methodStringify strDM toyReg (strFile strDM []) none
          (some { Options.mkEmpty with language := some jsonTag })).1 none = jsonTag :=
  ⟨by decide,
    (c9_method_stringify_mutates strDM toyReg (strFile strDM []) none jsonTag (by decide)).1,
    (c9_method_stringify_mutates strDM toyReg (strFile strDM []) none jsonTag (by decide)).2.2⟩

/-- The text after the opening delimiter and the optional language tag —
scanner steps 3 of the spec (source lines 93–101): what remains of the
content once the opening delimiter and, when a language tag was detected,
its raw token have been stripped. -/
def afterOpenAndTag (s : Str) (opts : ResolvedOpts α) : Str :=
  let s1 := s.drop opts.delimiters.1.length
  let lg := languageBody s1 opts
  if lg.name ≠ [] then s1.drop lg.raw.length else s1

/-- When the remaining text contains no closing-delimiter sequence, the
scan consumes everything: the raw block is the entire remainder and the
rebuilt body is empty. -/
theorem scanCore_no_close {dm : DataModel α} {reg : BuiltinLanguage → Engine α}
    {f : GrayFile α} {opts : ResolvedOpts α}
    (hfn : opts.excerpt.isFn = false)
    (h3 : hasSub f.content ('\n' :: opts.delimiters.2) = false) :
    (scanCore dm reg f opts).content = [] ∧
      (scanCore dm reg f opts).matter = afterOpenAndTag f.content opts := by
  have hdrop : hasSub (f.content.drop opts.delimiters.1.length)
      ('\n' :: opts.delimiters.2) = false := hasSub_drop_eq_false h3 _
  unfold scanCore afterOpenAndTag
  by_cases hln : (languageBody (f.content.drop opts.delimiters.1.length) opts).name = []
  · have hidx : indexOfSub (f.content.drop opts.delimiters.1.length)
        ('\n' :: opts.delimiters.2) = none := indexOfSub_eq_none_of_hasSub hdrop
    simp only [hln, ne_eq, not_true_eq_false, if_false, ite_false, hidx, Option.getD_none,
      List.take_length, if_true, ite_true, not_false_eq_true]
    constructor
    · split <;> rw [(excerpt_fields hfn).1]
    · split <;> rw [(excerpt_fields hfn).2.2.1]
  · have hidx : indexOfSub ((f.content.drop opts.delimiters.1.length).drop
        (languageBody (f.content.drop opts.delimiters.1.length) opts).raw.length)
        ('\n' :: opts.delimiters.2) = none := by
      rw [List.drop_drop]
      exact indexOfSub_eq_none_of_hasSub (hasSub_drop_eq_false h3 _)
    have hlen : ((f.content.drop opts.delimiters.1.length).drop
        (languageBody (f.content.drop opts.delimiters.1.length) opts).raw.length).length ≤
        (f.content.drop opts.delimiters.1.length).length := by
      simp only [List.length_drop]
      omega
    simp only [hln, ne_eq, not_false_eq_true, if_true, ite_true, hidx, Option.getD_none,
      List.take_of_length_le hlen, if_false, ite_false]
    constructor
    · split <;> rw [(excerpt_fields hfn).1]
    · split <;> rw [(excerpt_fields hfn).2.2.1]

/-- C3: for every input whose (normalized) content starts with the opening
delimiter, passes the false-match guard, and contains no closing
delimiter — a line break followed by the closing delimiter string —
parsing succeeds without error: the entire text after the opening
delimiter (and optional language tag) becomes the raw metadata block and
the resulting content is the empty string.  (Engine parse calls are total
functions in this model, matching the repository's `Engine` interface;
an engine exception is error class (b) of the spec, not part of this
claim.) -/
theorem c3_missing_close_delimiter (dm : DataModel α) (reg : BuiltinLanguage → Engine α)
    (T : Str) (options : Option (Options α))
    (hfn : (defaults options).excerpt.isFn = false)
    (h1 : jsStartsWith (defaults options).delimiters.1 (stripBom T) = true)
    (h2 : (stripBom T)[(defaults options).delimiters.1.length]? ≠
      (defaults options).delimiters.1.getLast?)
    (h3 : hasSub (stripBom T) ('\n' :: (defaults options).delimiters.2) = false) :
    ∃ g, matterEntry dm reg (.istr T) options = .ok g ∧
      g.content = [] ∧
      g.matter = afterOpenAndTag (stripBom T) (defaults options) := by
  cases T with
  | nil =>
    exfalso
    have hopen : (defaults options).delimiters.1 = [] := by
      have := List.isPrefixOf_iff_prefix.mp h1
      simpa [stripBom] using List.prefix_nil.mp (by simpa [stripBom] using this)
    exact h2 (by simp [stripBom, hopen])
  | cons c cs =>
    rw [matterEntry_cons]
    refine ⟨_, rfl, ?_⟩
    rw [parseMatter_of_scan h1 h2]
    have hc : (if (defaults options).language ≠ [] then
        { strFile dm (c :: cs) with language := (defaults options).language }
        else strFile dm (c :: cs)).content = stripBom (c :: cs) := by
      split <;> simp [strFile]
    have := @scanCore_no_close α dm reg
      (if (defaults options).language ≠ [] then
        { strFile dm (c :: cs) with language := (defaults options).language }
        else strFile dm (c :: cs))
      (defaults options) hfn (by rw [hc]; exact h3)
    rw [hc] at this
    exact this

theorem c3_witness :
    (defaults (none : Option (Options SData))).excerpt.isFn = false ∧
      jsStartsWith (defaults (none : Option (Options SData))).delimiters.1
        (stripBom ['-', '-', '-', '\n', 'a', ':', ' ', 'b']) = true ∧
      (stripBom ['-', '-', '-', '\n', 'a', ':', ' ', 'b'])[(defaults
        (none : Option (Options SData))).delimiters.1.length]? ≠
        (defaults (none : Option (Options SData))).delimiters.1.getLast? ∧
      hasSub (stripBom ['-', '-', '-', '\n', 'a', ':', ' ', 'b'])
        ('\n' :: (defaults (none : Option (Options SData))).delimiters.2) = false ∧
      ∃ g, matterEntry strDM toyReg (.istr ['-', '-', '-', '\n', 'a', ':', ' ', 'b']) none =
          .ok g ∧ g.content = [] ∧
        g.matter = afterOpenAndTag (stripBom ['-', '-', '-', '\n', 'a', ':', ' ', 'b'])
          (defaults (none : Option (Options SData))) :=
  ⟨by decide, by decide, by decide, by decide,
    c3_missing_close_delimiter strDM toyReg ['-', '-', '-', '\n', 'a', ':', ' ', 'b'] none
      (by decide) (by decide) (by decide) (by decide)⟩

/-- The raw metadata block that the scan extracts from a content string —
source lines 93–110 as a standalone function: strip the opening
delimiter, remember the pre-tag length, strip an optional language tag,
and take everything up to the closing-delimiter match (or everything, if
none). -/
def rawBlockOf (s : Str) (opts : ResolvedOpts α) : Str :=
  let s1 := s.drop opts.delimiters.1.length
  let len := s1.length
  let lg := languageBody s1 opts
  let s2 := if lg.name ≠ [] then s1.drop lg.raw.length else s1
  s2.take ((indexOfSub s2 ('\n' :: opts.delimiters.2)).getD len)

/-- When the comment-stripped, trimmed raw block is empty, the scan sets
`isEmpty`, snapshots the pre-parse content, resets `data`, and never
consults the engine registry (the result is the same under any
registry). -/
theorem scanCore_empty_block {dm : DataModel α} {reg reg' : BuiltinLanguage → Engine α}
    {f : GrayFile α} {opts : ResolvedOpts α}
    (hfn : opts.excerpt.isFn = false)
    (hb : jsTrim (stripComments (rawBlockOf f.content opts)) = []) :
    (scanCore dm reg f opts).isEmpty = true ∧
      (scanCore dm reg f opts).empty = some f.content ∧
      (scanCore dm reg f opts).data = dm.emptyD ∧
      scanCore dm reg f opts = scanCore dm reg' f opts := by
  simp only [rawBlockOf] at hb
  refine ⟨?_, ?_, ?_, ?_⟩ <;> simp only [scanCore] <;> rw [if_pos hb]
  · rw [(excerpt_fields hfn).2.2.2.1, apply_ite GrayFile.isEmpty]
    repeat' split
    all_goals rfl
  · rw [(excerpt_fields hfn).2.2.2.2.1, apply_ite GrayFile.empty]
    repeat' split
    all_goals rfl
  · rw [(excerpt_fields hfn).2.1, apply_ite GrayFile.data]
    repeat' split
    all_goals rfl
  · rw [if_pos hb]

/-- The comment removal described by the spec, written from its words for
comparison with the code's `stripComments`: drop every line whose first
character after leading whitespace is `#`, with no requirement that any
text follow the `#`. -/
def specStripComments (s : Str) : Str :=
  joinWith ['\n'] ((splitNl s).filter (fun l => ¬ (l.dropWhile isWs).head? = some '#'))

/-- C4 as originally stated is false: the code's comment pattern
`^\s*#[^\n]+` removes a comment line only when at least one character
follows the `#`, which is narrower than the claimed removal of every
line starting with `#`.  On the document consisting of `---`, a newline
and a lone `#`, the raw metadata block is a bare `#` line: the claimed
removal deletes it, so the original hypothesis holds and the claim
predicts `isEmpty = true` with an `empty` snapshot and empty data — yet
the code keeps the line, invokes the engine, and returns `isEmpty =
false` with no `empty` snapshot and non-empty data. -/
theorem c4_counterexample :
    jsStartsWith (defaults (none : Option (Options SData))).delimiters.1
        (stripBom ['-', '-', '-', '\n', '#']) = true ∧
      (stripBom ['-', '-', '-', '\n', '#'])[(defaults
        (none : Option (Options SData))).delimiters.1.length]? ≠
        (defaults (none : Option (Options SData))).delimiters.1.getLast? ∧
      jsTrim (specStripComments (rawBlockOf (stripBom ['-', '-', '-', '\n', '#'])
        (defaults (none : Option (Options SData))))) = [] ∧
      (matterEntry strDM toyReg (.istr ['-', '-', '-', '\n', '#']) none).toOption.map
        (fun f => (f.isEmpty, f.empty, decide (f.data = strDM.emptyD))) =
        some (false, none, false) :=
  ⟨by decide, by decide, by decide, by decide⟩

/-- C4 amended: for every document that enters the scan and whose raw
metadata block — after the code's comment-stripping replacement
`^\s*#[^\n]+`, which removes a line starting (after leading whitespace)
with `#` only when at least one further character follows the `#`, and
after trimming surrounding whitespace — is empty, parsing sets `isEmpty`
to true, snapshots the pre-parse content into `empty`, sets `data` to
the empty mapping, and never invokes the language engine's parse
operation (the result is identical under any engine registry). -/
theorem c4_empty_metadata_block (dm : DataModel α) (reg reg' : BuiltinLanguage → Engine α)
    (T : Str) (options : Option (Options α))
    (hfn : (defaults options).excerpt.isFn = false)
    (h1 : jsStartsWith (defaults options).delimiters.1 (stripBom T) = true)
    (h2 : (stripBom T)[(defaults options).delimiters.1.length]? ≠
      (defaults options).delimiters.1.getLast?)
    (hb : jsTrim (stripComments (rawBlockOf (stripBom T) (defaults options))) = []) :
    ∃ g, matterEntry dm reg (.istr T) options = .ok g ∧
      g.isEmpty = true ∧ g.empty = some (stripBom T) ∧ g.data = dm.emptyD ∧
      matterEntry dm reg' (.istr T) options = .ok g := by
  cases T with
  | nil =>
    exfalso
    have hopen : (defaults options).delimiters.1 = [] := by
      have := List.isPrefixOf_iff_prefix.mp h1
      simpa [stripBom] using List.prefix_nil.mp (by simpa [stripBom] using this)
    exact h2 (by simp [stripBom, hopen])
  | cons c cs =>
    rw [matterEntry_cons, matterEntry_cons]
    refine ⟨_, rfl, ?_⟩
    rw [parseMatter_of_scan h1 h2, parseMatter_of_scan h1 h2]
    have hc : (if (defaults options).language ≠ [] then
        { strFile dm (c :: cs) with language := (defaults options).language }
        else strFile dm (c :: cs)).content = stripBom (c :: cs) := by
      split <;> simp [strFile]
    have hmain := @scanCore_empty_block α dm reg reg'
      (if (defaults options).language ≠ [] then
        { strFile dm (c :: cs) with language := (defaults options).language }
        else strFile dm (c :: cs))
      (defaults options) hfn (by rw [hc]; exact hb)
    rw [hc] at hmain
    exact ⟨hmain.1, hmain.2.1, hmain.2.2.1, by rw [hmain.2.2.2]⟩

theorem c4_witness :
    (defaults (none : Option (Options SData))).excerpt.isFn = false ∧
      jsStartsWith (defaults (none : Option (Options SData))).delimiters.1
        (stripBom ['-', '-', '-', '\n', '#', ' ', 'c', '\n', '-', '-', '-', '\n', 'b']) = true ∧
      (stripBom ['-', '-', '-', '\n', '#', ' ', 'c', '\n', '-', '-', '-', '\n', 'b'])[(defaults
        (none : Option (Options SData))).delimiters.1.length]? ≠
        (defaults (none : Option (Options SData))).delimiters.1.getLast? ∧
      jsTrim (stripComments (rawBlockOf
        (stripBom ['-', '-', '-', '\n', '#', ' ', 'c', '\n', '-', '-', '-', '\n', 'b'])
        (defaults (none : Option (Options SData))))) = [] ∧
      ∃ g, matterEntry strDM toyReg
          (.istr ['-', '-', '-', '\n', '#', ' ', 'c', '\n', '-', '-', '-', '\n', 'b']) none =
          .ok g ∧ g.isEmpty = true ∧
        g.empty = some (stripBom
          ['-', '-', '-', '\n', '#', ' ', 'c', '\n', '-', '-', '-', '\n', 'b']) ∧
        g.data = strDM.emptyD ∧
        matterEntry strDM (fun _ => { parse := fun _ => [([], [])], stringify := fun _ => [] })
          (.istr ['-', '-', '-', '\n', '#', ' ', 'c', '\n', '-', '-', '-', '\n', 'b']) none =
          .ok g :=
  ⟨by decide, by decide, by decide, by decide,
    c4_empty_metadata_block strDM toyReg
      (fun _ => { parse := fun _ => [([], [])], stringify := fun _ => [] })
      ['-', '-', '-', '\n', '#', ' ', 'c', '\n', '-', '-', '-', '\n', 'b'] none
      (by decide) (by decide) (by decide) (by decide)⟩

/-- The body-side normalization of source lines 127–132: drop at most one
leading carriage return, then at most one leading linefeed. -/
def stripLeadCRLF (c : Str) : Str :=
  let c := if c.head? = some '\r' then c.drop 1 else c
  if c.head? = some '\n' then c.drop 1 else c

theorem defaults_none_delim1 :
    (defaults (none : Option (Options α))).delimiters.1 = dashes := rfl

theorem defaults_none_delim2 :
    (defaults (none : Option (Options α))).delimiters.2 = dashes := rfl

theorem matterEntry_ne_nil (dm : DataModel α) (reg : BuiltinLanguage → Engine α)
    {T : Str} (h : T ≠ []) (options : Option (Options α)) :
    matterEntry dm reg (.istr T) options =
      .ok (parseMatter dm reg (strFile dm T) options) := by
  cases T with
  | nil => exact absurd rfl h
  | cons c cs => exact matterEntry_cons dm reg c cs options

/-- Running the scan (default options) on a document of the shape
`--- ++ block ++ \n--- ++ rest`, where the block starts with a line break
(LF, or CR immediately followed by LF) and contains no closing-delimiter
sequence: the raw matter is exactly the block, the body is `rest` with one
leading CR and then one leading LF removed, and the data is the empty
mapping for a comment-empty block and otherwise the engine's parse of the
block. -/
theorem scanCore_run (dm : DataModel α) (reg : BuiltinLanguage → Engine α)
    (f1 : GrayFile α) (b r : Str)
    (hcon : f1.content = dashes ++ (b ++ ('\n' :: dashes) ++ r))
    (hh : b.head? = some '\n' ∨ (b.head? = some '\r' ∧ b.tail.head? = some '\n'))
    (hfree : hasSub b ('\n' :: dashes) = false) :
    (scanCore dm reg f1 (defaults (none : Option (Options α)))).matter = b ∧
      (scanCore dm reg f1 (defaults none)).content = stripLeadCRLF r ∧
      (scanCore dm reg f1 (defaults none)).data =
        (if jsTrim (stripComments b) = [] then dm.emptyD
         else (reg (toBuiltinLanguage f1.language)).parse b) := by
  have hbne : b ≠ [] := by
    rcases hh with h | ⟨h, -⟩ <;> (intro hcon'; rw [hcon'] at h; cases h)
  obtain ⟨a, as, hb⟩ : ∃ a as, b = a :: as := by
    cases b with
    | nil => exact absurd rfl hbne
    | cons a as => exact ⟨a, as, rfl⟩
  have hhead : a = '\n' ∨ (a = '\r' ∧ as.head? = some '\n') := by
    rcases hh with h | ⟨h1, h2⟩
    · left; rw [hb] at h; exact Option.some_inj.mp h
    · right
      rw [hb] at h1 h2
      exact ⟨Option.some_inj.mp h1, h2⟩
  have hpre : List.isPrefixOf dashes (b ++ ('\n' :: dashes) ++ r) = false := by
    rw [hb]
    rcases hhead with h | ⟨h, -⟩ <;> subst h <;> rfl
  have hsrch : searchNl (b ++ ('\n' :: dashes) ++ r) = some 0 := by
    rw [hb]
    rcases hhead with h | ⟨h, h2⟩
    · subst h; rfl
    · subst h
      obtain ⟨as1, has⟩ : ∃ as1, as = '\n' :: as1 := by
        cases as with
        | nil => cases h2
        | cons x xs => exact ⟨xs, by rw [Option.some_inj.mp h2]⟩
      rw [has]
      rfl
  have hlang : languageBody (b ++ ('\n' :: dashes) ++ r)
      (defaults (none : Option (Options α))) = { raw := [], name := [] } := by
    unfold languageBody jsStartsWith
    simp only [defaults_none_delim1, hpre, Bool.false_eq_true, if_false, hsrch]
    rfl
  have hmark : indexOfSub (b ++ ('\n' :: dashes) ++ r) ('\n' :: dashes) =
      some b.length := indexOfSub_marker (by decide) hfree
  have htake : (b ++ ('\n' :: dashes) ++ r).take b.length = b := by
    rw [List.append_assoc]
    exact List.take_left b _
  have hlen : ¬ b.length = (b ++ ('\n' :: dashes) ++ r).length := by
    simp
  have hdrop4 : (b ++ ('\n' :: dashes) ++ r).drop (b.length + ('\n' :: dashes).length) = r := by
    have hx : b ++ ('\n' :: dashes) ++ r = (b ++ ('\n' :: dashes)) ++ r := by simp
    rw [hx]
    refine List.drop_left' ?_
    simp
  have hfn : (defaults (none : Option (Options α))).excerpt.isFn = false := rfl
  unfold scanCore
  simp only [hcon, defaults_none_delim1, defaults_none_delim2, List.drop_left, hlang,
    ne_eq, not_true_eq_false, if_false, ite_false, ite_true, not_false_eq_true,
    hmark, Option.getD_some, htake, hlen, hdrop4]
  refine ⟨?_, ?_, ?_⟩
  · rw [(excerpt_fields hfn).2.2.1]
    split
    · rfl
    · rfl
  · rw [(excerpt_fields hfn).1]
    simp only [stripLeadCRLF]
  · rw [(excerpt_fields hfn).2.1]
    split
    · rfl
    · rfl


/-- A document descriptor carrying just a body and a metadata mapping, as
in the spec's `stringifyDocument({content:B, data:M})`. -/
def mkDoc (B : Str) (M : α) : GrayFile α :=
  { data := M
    content := B
    excerpt := []
    orig := B
    language := []
    matter := []
    isEmpty := false
    empty := none }

theorem defaults_none_language :
    (defaults (none : Option (Options α))).language = yamlTag := rfl

theorem c1_out (dm : DataModel α) (reg : BuiltinLanguage → Engine α) (M : α) (B : Str)
    (hMM : dm.mergeD M M = M)
    (hm0 : jsTrim ((reg .yaml).stringify M) ≠ [])
    (hm1 : jsTrim ((reg .yaml).stringify M) ≠ emptyObjRepr) :
    stringify dm reg (.inl (mkDoc B M)) none none =
      .ok ((dashes ++ ['\n']) ++ ((jsTrim ((reg .yaml).stringify M)) ++ ['\n']) ++
        (dashes ++ ['\n']) ++ newline B) := by
  unfold stringify
  have e1 : (defaults (some (Options.mkEmpty : Options α))).language = yamlTag := rfl
  have e2 : (defaults (some (Options.mkEmpty : Options α))).delimiters.1 = dashes := rfl
  have e3 : (defaults (some (Options.mkEmpty : Options α))).delimiters.2 = dashes := rfl
  have e4 : toBuiltinLanguage yamlTag = .yaml := rfl
  have e5 : newline dashes = dashes ++ ['\n'] := rfl
  simp only [mkDoc, hMM, jsOr, e1, e2, e3, if_true, ite_true, e4]
  rw [if_pos hm1]
  simp only [ne_eq, not_true_eq_false, false_and, if_false, ite_false]
  rw [newline_jsTrim hm0, e5]


/-- C1: for every mapping serializable by the registered engine and every
body text, parsing the stringified document yields data equal to the
engine's own round-trip of the mapping — equality with the original
mapping up to the serialization format's type normalization.  The
hypotheses delimit serializability: the merge of the mapping with itself
is itself (true of JS object spread), the trimmed serialization is
non-empty, is not the empty-object rendering (else no block is emitted),
contains no closing-delimiter sequence, and does not comment-strip to
nothing; `hN` names the engine's normalized round-trip of the mapping. -/
theorem c1_roundtrip (dm : DataModel α) (reg : BuiltinLanguage → Engine α)
    (M : α) (B : Str) (N : α)
    (hMM : dm.mergeD M M = M)
    (hm0 : jsTrim ((reg .yaml).stringify M) ≠ [])
    (hm1 : jsTrim ((reg .yaml).stringify M) ≠ emptyObjRepr)
    (hfree : hasSub ('\n' :: jsTrim ((reg .yaml).stringify M)) ('\n' :: dashes) = false)
    (hblock : jsTrim (stripComments ('\n' :: jsTrim ((reg .yaml).stringify M))) ≠ [])
    (hN : (reg .yaml).parse ('\n' :: jsTrim ((reg .yaml).stringify M)) = N) :
    ∃ out g,
      stringify dm reg (.inl (mkDoc B M)) none none = .ok out ∧
      matterEntry dm reg (.istr out) none = .ok g ∧
      g.data = N := by
  set m := jsTrim ((reg .yaml).stringify M) with hm
  set out := (dashes ++ ['\n']) ++ (m ++ ['\n']) ++ (dashes ++ ['\n']) ++ newline B with hout
  have hre : out = dashes ++ (('\n' :: m) ++ ('\n' :: dashes) ++ ('\n' :: newline B)) := by
    rw [hout]
    simp
  have houtne : out ≠ [] := by
    rw [hre]
    simp [dashes]
  have hstrip : stripBom out = out := by
    refine stripBom_of_head ?_
    rw [hre]
    intro hcon
    simp [dashes] at hcon
    exact absurd hcon (by decide)
  have hcontent : (strFile dm out).content = dashes ++ (('\n' :: m) ++ ('\n' :: dashes) ++
      ('\n' :: newline B)) := by
    show stripBom out = _
    rw [hstrip, hre]
  have h1 : jsStartsWith (defaults (none : Option (Options α))).delimiters.1
      ((strFile dm out).content) = true := by
    rw [hcontent, defaults_none_delim1]
    exact jsStartsWith_append dashes _
  have h2 : (strFile dm out).content[(defaults
      (none : Option (Options α))).delimiters.1.length]? ≠
      (defaults (none : Option (Options α))).delimiters.1.getLast? := by
    rw [hcontent, defaults_none_delim1]
    rw [List.getElem?_append_right (by decide : dashes.length ≤ dashes.length)]
    simp [dashes]
  have hparse : parseMatter dm reg (strFile dm out) none =
      scanCore dm reg { strFile dm out with language := yamlTag }
        (defaults (none : Option (Options α))) := by
    rw [parseMatter_of_scan h1 h2, defaults_none_language,
      if_pos (by decide : yamlTag ≠ ([] : Str))]
  have hrun := scanCore_run dm reg { strFile dm out with language := yamlTag }
    ('\n' :: m) ('\n' :: newline B)
    (by show stripBom out = _; rw [hstrip, hre]) (by left; rfl) hfree
  refine ⟨out, _, c1_out dm reg M B hMM hm0 hm1, matterEntry_ne_nil dm reg houtne none, ?_⟩
  rw [hparse, hrun.2.2]
  rw [if_neg hblock]
  exact hN


theorem c1_witness :
    strDM.mergeD [(['a', 'b', 'c'], ['x', 'y', 'z'])] [(['a', 'b', 'c'], ['x', 'y', 'z'])] =
        [(['a', 'b', 'c'], ['x', 'y', 'z'])] ∧
      jsTrim ((toyReg .yaml).stringify [(['a', 'b', 'c'], ['x', 'y', 'z'])]) ≠ [] ∧
      jsTrim ((toyReg .yaml).stringify [(['a', 'b', 'c'], ['x', 'y', 'z'])]) ≠ emptyObjRepr ∧
      hasSub ('\n' :: jsTrim ((toyReg .yaml).stringify [(['a', 'b', 'c'], ['x', 'y', 'z'])]))
        ('\n' :: dashes) = false ∧
      jsTrim (stripComments ('\n' :: jsTrim ((toyReg .yaml).stringify
        [(['a', 'b', 'c'], ['x', 'y', 'z'])]))) ≠ [] ∧
      (toyReg .yaml).parse ('\n' :: jsTrim ((toyReg .yaml).stringify
        [(['a', 'b', 'c'], ['x', 'y', 'z'])])) = [(['a', 'b', 'c'], ['x', 'y', 'z'])] ∧
      ∃ out g,
        stringify strDM toyReg (.inl (mkDoc ['B'] [(['a', 'b', 'c'], ['x', 'y', 'z'])]))
          none none = .ok out ∧
        matterEntry strDM toyReg (.istr out) none = .ok g ∧
        g.data = [(['a', 'b', 'c'], ['x', 'y', 'z'])] :=
  ⟨by decide, by decide, by decide, by decide, by decide, by decide,
    c1_roundtrip strDM toyReg [(['a', 'b', 'c'], ['x', 'y', 'z'])] ['B']
      [(['a', 'b', 'c'], ['x', 'y', 'z'])] (by decide) (by decide) (by decide) (by decide)
      (by decide) (by decide)⟩


/-- Parsing (with default options) a framed document
`--- ++ block ++ \n--- ++ rest` whose block starts with a line break and
contains no closing-delimiter sequence. -/
theorem parse_framed (dm : DataModel α) (reg : BuiltinLanguage → Engine α) (b r : Str)
    (hh : b.head? = some '\n' ∨ (b.head? = some '\r' ∧ b.tail.head? = some '\n'))
    (hfree : hasSub b ('\n' :: dashes) = false) :
    ∃ g, matterEntry dm reg (.istr (dashes ++ (b ++ ('\n' :: dashes) ++ r))) none = .ok g ∧
      g.matter = b ∧ g.content = stripLeadCRLF r ∧
      g.data = (if jsTrim (stripComments b) = [] then dm.emptyD
                else (reg .yaml).parse b) := by
  obtain ⟨a, ha, haa⟩ : ∃ a, b.head? = some a ∧ (a = '\n' ∨ a = '\r') := by
    rcases hh with h | ⟨h, -⟩
    · exact ⟨'\n', h, Or.inl rfl⟩
    · exact ⟨'\r', h, Or.inr rfl⟩
  have hbne : b ≠ [] := by
    intro hcon
    rw [hcon] at ha
    cases ha
  set doc := dashes ++ (b ++ ('\n' :: dashes) ++ r) with hdoc
  have hdocne : doc ≠ [] := by
    rw [hdoc]
    simp [dashes]
  have hstrip : stripBom doc = doc := by
    refine stripBom_of_head ?_
    rw [hdoc]
    intro hcon
    simp [dashes] at hcon
    exact absurd hcon (by decide)
  have hcontent : (strFile dm doc).content = dashes ++ (b ++ ('\n' :: dashes) ++ r) := by
    show stripBom doc = _
    rw [hstrip, hdoc]
  have h1 : jsStartsWith (defaults (none : Option (Options α))).delimiters.1
      ((strFile dm doc).content) = true := by
    rw [hcontent, defaults_none_delim1]
    exact jsStartsWith_append dashes _
  have h2 : (strFile dm doc).content[(defaults
      (none : Option (Options α))).delimiters.1.length]? ≠
      (defaults (none : Option (Options α))).delimiters.1.getLast? := by
    rw [hcontent, defaults_none_delim1]
    rw [List.getElem?_append_right (by decide : dashes.length ≤ dashes.length)]
    have hb0 : (b ++ ('\n' :: dashes) ++ r)[0]? = some a := by
      rw [List.append_assoc, List.getElem?_append_left (List.length_pos.mpr hbne)]
      rw [← List.head?_eq_getElem?]
      exact ha
    have : dashes.length - dashes.length = 0 := by decide
    rw [this, hb0]
    rcases haa with h | h <;> subst h <;> decide
  have hparse : parseMatter dm reg (strFile dm doc) none =
      scanCore dm reg { strFile dm doc with language := yamlTag }
        (defaults (none : Option (Options α))) := by
    rw [parseMatter_of_scan h1 h2, defaults_none_language,
      if_pos (by decide : yamlTag ≠ ([] : Str))]
  have hrun := scanCore_run dm reg { strFile dm doc with language := yamlTag } b r
    (by show stripBom doc = _; rw [hstrip, hdoc]) hh hfree
  refine ⟨_, by rw [matterEntry_ne_nil dm reg hdocne none, hparse], hrun.1, hrun.2.1, ?_⟩
  rw [hrun.2.2]
  rfl


/-- The LF variant of a logical metadata block: a linefeed, then the
metadata lines joined by linefeeds (what the scanner extracts as the raw
block from the LF document). -/
def lfMatter (ms : List Str) : Str := '\n' :: joinWith ['\n'] ms

/-- The CRLF variant of the same logical metadata block as extracted by
the scanner: the CR of the opening line's CRLF, a linefeed, the lines
joined by CRLF, and the CR of the closing line's CRLF. -/
def crlfMatter (ms : List Str) : Str :=
  '\r' :: '\n' :: (joinWith ['\r', '\n'] ms ++ ['\r'])

/-- The LF-terminated logical document: opening delimiter, metadata
lines, closing delimiter, body, all separated by LF. -/
def lfDoc (ms : List Str) (B : Str) : Str :=
  dashes ++ (lfMatter ms ++ ('\n' :: dashes) ++ ('\n' :: B))

/-- The CRLF-terminated variant of the same logical document. -/
def crlfDoc (ms : List Str) (B : Str) : Str :=
  dashes ++ (crlfMatter ms ++ ('\n' :: dashes) ++ ('\r' :: '\n' :: B))

theorem removeCR_join (ms : List Str) (hr : ∀ m ∈ ms, '\r' ∉ m) :
    removeCR (joinWith ['\r', '\n'] ms) = joinWith ['\n'] ms := by
  induction ms with
  | nil => rfl
  | cons m rest ih =>
    have hm : removeCR m = m :=
      List.filter_eq_self.mpr fun c hc => by
        simp only [ne_eq, decide_eq_true_eq]
        intro hcr
        exact hr m (List.mem_cons_self m rest) (hcr ▸ hc)
    cases rest with
    | nil =>
      show removeCR m = m
      exact hm
    | cons m2 rest2 =>
      show removeCR (m ++ ['\r', '\n'] ++ joinWith ['\r', '\n'] (m2 :: rest2)) = _
      unfold removeCR
      rw [List.filter_append, List.filter_append]
      have ht : removeCR (joinWith ['\r', '\n'] (m2 :: rest2)) =
          joinWith ['\n'] (m2 :: rest2) :=
        ih fun x hx => hr x (List.mem_cons_of_mem m hx)
      show removeCR m ++ removeCR ['\r', '\n'] ++ removeCR (joinWith ['\r', '\n'] (m2 :: rest2)) = _
      rw [hm, ht]
      rfl

theorem removeCR_crlfMatter (ms : List Str) (hr : ∀ m ∈ ms, '\r' ∉ m) :
    removeCR (crlfMatter ms) = lfMatter ms := by
  show removeCR ('\r' :: '\n' :: (joinWith ['\r', '\n'] ms ++ ['\r'])) = _
  unfold removeCR
  show List.filter _ ('\r' :: '\n' :: (joinWith ['\r', '\n'] ms ++ ['\r'])) = _
  rw [List.filter_cons_of_neg (by decide), List.filter_cons_of_pos (by decide),
    List.filter_append]
  have := removeCR_join ms hr
  unfold removeCR at this
  rw [this]
  simp [lfMatter]

/-- C6: the CRLF-terminated and LF-terminated variants of the same
logical document parse to identical data and identical content (the
body).  The hypotheses express well-formedness of the logical document
(no carriage returns inside lines, no closing-delimiter sequence inside
either raw block) and the two facts outside the scanner's control: the
engine treats the CRLF block like its CR-free (LF) form, and the two
blocks agree on comment-emptiness (they always do for real engines;
abstractly this excludes the lone-`#` corner where the comment regex
consumes a trailing CR but has nothing to consume after a bare `#`). -/
theorem c6_crlf_lf_consistent (dm : DataModel α) (reg : BuiltinLanguage → Engine α)
    (ms : List Str) (B : Str)
    (hr : ∀ m ∈ ms, '\r' ∉ m)
    (hfreeL : hasSub (lfMatter ms) ('\n' :: dashes) = false)
    (hfreeC : hasSub (crlfMatter ms) ('\n' :: dashes) = false)
    (hE : (reg .yaml).parse (removeCR (crlfMatter ms)) = (reg .yaml).parse (crlfMatter ms))
    (hblk : jsTrim (stripComments (lfMatter ms)) = [] ↔
      jsTrim (stripComments (crlfMatter ms)) = []) :
    ∃ gL gC, matterEntry dm reg (.istr (lfDoc ms B)) none = .ok gL ∧
      matterEntry dm reg (.istr (crlfDoc ms B)) none = .ok gC ∧
      gL.data = gC.data ∧ gL.content = gC.content ∧ gL.content = B := by
  obtain ⟨gL, hgL, hmL, hcL, hdL⟩ :=
    parse_framed dm reg (lfMatter ms) ('\n' :: B) (Or.inl rfl) hfreeL
  obtain ⟨gC, hgC, hmC, hcC, hdC⟩ :=
    parse_framed dm reg (crlfMatter ms) ('\r' :: '\n' :: B) (Or.inr ⟨rfl, rfl⟩) hfreeC
  refine ⟨gL, gC, hgL, hgC, ?_, ?_, ?_⟩
  · rw [hdL, hdC]
    by_cases hbl : jsTrim (stripComments (lfMatter ms)) = []
    · rw [if_pos hbl, if_pos (hblk.mp hbl)]
    · rw [if_neg hbl, if_neg (fun hcon => hbl (hblk.mpr hcon))]
      rw [← hE, removeCR_crlfMatter ms hr]
  · rw [hcL, hcC]
    rfl
  · rw [hcL]
    rfl


theorem c6_witness :
    (∀ m ∈ [['t', ':', ' ', '1']], '\r' ∉ m) ∧
      hasSub (lfMatter [['t', ':', ' ', '1']]) ('\n' :: dashes) = false ∧
      hasSub (crlfMatter [['t', ':', ' ', '1']]) ('\n' :: dashes) = false ∧
      (toyReg .yaml).parse (removeCR (crlfMatter [['t', ':', ' ', '1']])) =
        (toyReg .yaml).parse (crlfMatter [['t', ':', ' ', '1']]) ∧
      (jsTrim (stripComments (lfMatter [['t', ':', ' ', '1']])) = [] ↔
        jsTrim (stripComments (crlfMatter [['t', ':', ' ', '1']])) = []) ∧
      ∃ gL gC,
        matterEntry strDM toyReg (.istr (lfDoc [['t', ':', ' ', '1']] ['b'])) none = .ok gL ∧
        matterEntry strDM toyReg (.istr (crlfDoc [['t', ':', ' ', '1']] ['b'])) none = .ok gC ∧
        gL.data = gC.data ∧ gL.content = gC.content ∧ gL.content = ['b'] :=
  ⟨by decide, by decide, by decide, by decide, by decide,
    c6_crlf_lf_consistent strDM toyReg [['t', ':', ' ', '1']] ['b']
      (by decide) (by decide) (by decide) (by decide) (by decide)⟩


/-- The `sep` value of excerpt.ts line 49: the data's `excerpt_separator`
when non-empty, else the `excerpt_separator` option. -/
def sepOf (dm : DataModel α) (f : GrayFile α) (opts : ResolvedOpts α) : Option Str :=
  if dm.getStrProp f.data sepKey ≠ [] then some (dm.getStrProp f.data sepKey)
  else opts.excerpt_separator

/-- The delimiter the code actually searches for (excerpt.ts line 55):
the explicit string `excerpt` option first, else `sep`, else the primary
opening delimiter. -/
def codeExcerptDelim (dm : DataModel α) (f : GrayFile α) (opts : ResolvedOpts α) : Str :=
  match opts.excerpt with
  | .str s => s
  | _ => (sepOf dm f opts).getD opts.delimiters.1

/-- The delimiter resolution order stated by the spec (claim C7), written
from the spec's words for comparison with the code: metadata's non-empty
`excerpt_separator` first, then the explicit string value of the
`excerpt` option, then the `excerpt_separator` option, then the primary
opening delimiter. -/
def specExcerptDelim (dm : DataModel α) (f : GrayFile α) (opts : ResolvedOpts α) : Str :=
  if dm.getStrProp f.data sepKey ≠ [] then dm.getStrProp f.data sepKey
  else
    match opts.excerpt with
    | .str s => s
    | _ =>
      match opts.excerpt_separator with
      | some s => s
      | none => opts.delimiters.1

/-- A document whose metadata carries `excerpt_separator: "SEP"` while
the `excerpt` option is the explicit string `"CUT"`; its content contains
`SEP` (at index 2) before `CUT` (at index 8). -/
def c7File : GrayFile SData :=
  { data := [(sepKey, ['S', 'E', 'P'])]
    content := ['A', ' ', 'S', 'E', 'P', ' ', 'B', ' ', 'C', 'U', 'T', ' ', 'C']
    excerpt := []
    orig := []
    language := yamlTag
    matter := []
    isEmpty := false
    empty := none }

/-- Options carrying the explicit string excerpt delimiter `"CUT"`. -/
def c7Opts : Options SData :=
  { language := none, delimiters := none, excerpt := .str ['C', 'U', 'T'],
    excerpt_separator := none, data := none }

/-- C7, as stated, is false: the spec gives the metadata's
`excerpt_separator` the highest priority, but the code gives the explicit
string `excerpt` option priority over it (excerpt.ts line 55).  On
`c7File`/`c7Opts` the spec-resolved delimiter is `SEP`, yet the computed
excerpt is the text before `CUT`, not the text before `SEP`. -/
theorem c7_counterexample :
    (defaults (some c7Opts)).excerpt.isFn = false ∧
      specExcerptDelim strDM c7File (defaults (some c7Opts)) =
        strDM.getStrProp c7File.data sepKey ∧
      (excerpt strDM c7File (defaults (some c7Opts))).excerpt ≠
        (match indexOfSub c7File.content
            (specExcerptDelim strDM c7File (defaults (some c7Opts))) with
         | some idx => c7File.content.take idx
         | none => c7File.excerpt) :=
  ⟨by decide, by decide, by decide⟩

/-- C7 amended: when excerpt extraction runs with a non-function excerpt
setting, the delimiter is resolved as the explicit string value of the
`excerpt` option first, then the metadata's non-empty
`excerpt_separator`, then the `excerpt_separator` option, then the
primary opening delimiter; the excerpt becomes the content before the
first occurrence of that delimiter (unchanged when there is none), and
content and data are not modified. -/
theorem c7_excerpt_resolution (dm : DataModel α) (f : GrayFile α) (opts : ResolvedOpts α)
    (hfn : opts.excerpt.isFn = false)
    (hrun : ((sepOf dm f opts).isNone && opts.excerpt.isFalsy) = false) :
    (excerpt dm f opts).content = f.content ∧
      (excerpt dm f opts).data = f.data ∧
      (excerpt dm f opts).excerpt =
        (match indexOfSub f.content (codeExcerptDelim dm f opts) with
         | some idx => f.content.take idx
         | none => f.excerpt) := by
  unfold excerpt codeExcerptDelim
  unfold sepOf at hrun ⊢
  cases hopt : opts.excerpt with
  | fn g => rw [hopt] at hfn; simp [ExcerptOpt.isFn] at hfn
  | undef =>
    rw [hopt] at hrun
    simp only [hopt, hrun, Bool.false_eq_true, if_false]
    refine ⟨?_, ?_, ?_⟩ <;> (repeat' split) <;> rfl
  | bool b =>
    rw [hopt] at hrun
    simp only [hopt, hrun, Bool.false_eq_true, if_false]
    refine ⟨?_, ?_, ?_⟩ <;> (repeat' split) <;> rfl
  | str s =>
    rw [hopt] at hrun
    simp only [hopt, hrun, Bool.false_eq_true, if_false]
    refine ⟨?_, ?_, ?_⟩ <;> (repeat' split) <;> rfl

theorem c7_witness :
    (defaults (some c7Opts)).excerpt.isFn = false ∧
      ((sepOf strDM c7File (defaults (some c7Opts))).isNone &&
        (defaults (some c7Opts)).excerpt.isFalsy) = false ∧
      ((excerpt strDM c7File (defaults (some c7Opts))).content = c7File.content ∧
        (excerpt strDM c7File (defaults (some c7Opts))).data = c7File.data ∧
        (excerpt strDM c7File (defaults (some c7Opts))).excerpt =
          (match indexOfSub c7File.content
              (codeExcerptDelim strDM c7File (defaults (some c7Opts))) with
           | some idx => c7File.content.take idx
           | none => c7File.excerpt)) :=
  ⟨by decide, by decide,
    c7_excerpt_resolution strDM c7File (defaults (some c7Opts)) (by decide) (by decide)⟩

end GrayMatter
